import Mathlib

/-!
Shallow embedding of the core of `kopy`, a one-way directory synchronization
engine, together with proofs about its diff engine, plan generation, tree
bookkeeping, executor loop and scanner filter.

Paths (`std::path::PathBuf` holding relative paths) are modelled as lists of
components (`List String`); joining paths is list append, and the ordering
used by `sort_by_path` is the lexicographic order on component lists, which
is how `Path::cmp` behaves on relative paths.  File modification times
(`SystemTime`) are modelled as `Nat` instants, and Blake3 digests
(`[u8; 32]`) as `Nat` values compared for equality only.  The filesystem
hashing operation `compute_hash` (which can fail with `Io`) is passed in as
an oracle `Path → Option Nat`; `none` models a hash error.
-/

namespace Kopy

/-- A relative filesystem path as its list of components. -/
abbrev Path := List String

/-- Rendering of a relative path, as `PathBuf::display` produces on Unix. -/
def Path.display (p : Path) : String :=
  String.intercalate "/" p

/-- Boolean form of the lexicographic path order used by `Path::cmp`. -/
def pathLe (a b : Path) : Bool :=
  decide (a ≤ b)

/-- The chain produced by `Path::ancestors()` on a relative path: the path
itself, then each parent in turn, ending with the empty path.  For a
component list this is `take n, take (n-1), …, take 0`. -/
def ancestorsDesc (q : Path) : List Path :=
  (List.range (q.length + 1)).reverse.map (fun k => q.take k)

/-- From `src/src/types/action.rs`: delete behavior. -/
inductive DeleteMode where
  | None
  | Trash
  | Permanent
deriving DecidableEq, Repr

/-- From `src/src/config/mod.rs`: directory scan execution mode. -/
inductive ScanMode where
  | Auto
  | Sequential
  | Parallel
deriving DecidableEq, Repr

/-- From `src/src/types/entry.rs`: one record per file-like leaf. -/
structure FileEntry where
  path : Path
  size : Nat
  mtime : Nat
  permissions : Nat
  hash : Option Nat
  is_symlink : Bool
  symlink_target : Option Path
deriving DecidableEq, Repr

/-- Embeds `FileEntry::new` from `src/src/types/entry.rs`. -/
def FileEntry.new (path : Path) (size : Nat) (mtime : Nat) (permissions : Nat) : FileEntry :=
  { path := path, size := size, mtime := mtime, permissions := permissions,
    hash := none, is_symlink := false, symlink_target := none }

/-- Embeds `FileEntry::new_symlink` from `src/src/types/entry.rs`. -/
def FileEntry.new_symlink (path : Path) (size : Nat) (mtime : Nat) (permissions : Nat)
    (target : Path) : FileEntry :=
  { path := path, size := size, mtime := mtime, permissions := permissions,
    hash := none, is_symlink := true, symlink_target := some target }

/-- From `src/src/types/action.rs`: sync action determined by the diff
engine.  In `Move`, `fromPath`/`toPath` stand for the Rust fields
`from`/`to`. -/
inductive SyncAction where
  | CopyNew (entry : FileEntry)
  | Overwrite (entry : FileEntry)
  | Delete (path : Path)
  | Move (fromPath toPath : Path)
  | Skip
deriving DecidableEq, Repr

/-- Embeds `SyncAction::is_skip`. -/
def SyncAction.is_skip : SyncAction → Bool
  | .Skip => true
  | _ => false

/-- Embeds `SyncAction::path`: the relative path an action operates on (`None` for
`Skip`; the `to` path for `Move`). -/
def SyncAction.path : SyncAction → Option Path
  | .CopyNew entry => some entry.path
  | .Overwrite entry => some entry.path
  | .Delete p => some p
  | .Move _ t => some t
  | .Skip => none

/-- Embeds `SyncAction::action_name`: displayable action name. -/
def SyncAction.action_name : SyncAction → String
  | .CopyNew _ => "Copy"
  | .Overwrite _ => "Update"
  | .Delete _ => "Delete"
  | .Move _ _ => "Move"
  | .Skip => "Skip"

/-- From `src/src/config/mod.rs`: global configuration. -/
structure Config where
  source : Path
  destination : Path
  dry_run : Bool
  checksum_mode : Bool
  delete_mode : DeleteMode
  exclude_patterns : List String
  include_patterns : List String
  threads : Nat
  scan_mode : ScanMode
  bandwidth_limit : Option Nat
  backup_dir : Option Path
  watch : Bool
  watch_settle : Nat
deriving DecidableEq, Repr

/-- From `src/src/types/tree.rs`: directory structure representation.  The
Rust `HashMap<PathBuf, FileEntry>` is modelled as an association list; the
list order stands for the (unobservable) iteration order of the map. -/
structure FileTree where
  entries : List (Path × FileEntry)
  total_size : Nat
  total_files : Nat
  total_dirs : Nat
  scan_duration : Nat
  root_path : Path
deriving DecidableEq, Repr

/-- Embeds `FileTree::new`. -/
def FileTree.new (root_path : Path) : FileTree :=
  { entries := [], total_size := 0, total_files := 0, total_dirs := 0,
    scan_duration := 0, root_path := root_path }

/-- First-match association-list lookup, standing for `HashMap::get`. -/
def lookupEntry : List (Path × FileEntry) → Path → Option FileEntry
  | [], _ => none
  | kv :: rest, p => if kv.1 = p then some kv.2 else lookupEntry rest p

/-- Replace the value stored under the first occurrence of a key, standing
for `HashMap::insert` on a present key. -/
def replaceEntry : List (Path × FileEntry) → Path → FileEntry → List (Path × FileEntry)
  | [], _, _ => []
  | kv :: rest, p, e => if kv.1 = p then (kv.1, e) :: rest else kv :: replaceEntry rest p e

/-- Embeds `FileTree::get`. -/
def FileTree.get (t : FileTree) (p : Path) : Option FileEntry :=
  lookupEntry t.entries p

/-- Embeds `FileTree::contains`. -/
def FileTree.contains (t : FileTree) (p : Path) : Bool :=
  (t.get p).isSome

/-- Embeds `FileTree::insert` from `src/src/types/tree.rs`: if the path is already
present the old entry is replaced, with its size and count subtracted first
(`saturating_sub`, which is `Nat` subtraction). -/
def FileTree.insert (t : FileTree) (path : Path) (entry : FileEntry) : FileTree :=
  match t.get path with
  | some old =>
    { t with
      total_size := t.total_size - old.size + entry.size,
      total_files := t.total_files - 1 + 1,
      entries := replaceEntry t.entries path entry }
  | none =>
    { t with
      total_size := t.total_size + entry.size,
      total_files := t.total_files + 1,
      entries := t.entries ++ [(path, entry)] }

/-- A `FileTree` built from the empty tree by a sequence of `insert` calls. -/
def buildTree (root : Path) (inserts : List (Path × FileEntry)) : FileTree :=
  inserts.foldl (fun t kv => t.insert kv.1 kv.2) (FileTree.new root)

/-- Sum of `entry.size` over a list of tree entries. -/
def sumEntrySizes (entries : List (Path × FileEntry)) : Nat :=
  (entries.map (fun kv => kv.2.size)).sum

/-- From `src/src/diff/engine.rs`: statistics about a diff plan. -/
structure PlanStats where
  total_files : Nat
  total_bytes : Nat
  copy_count : Nat
  overwrite_count : Nat
  delete_count : Nat
  skip_count : Nat
deriving DecidableEq, Repr

/-- Embeds `PlanStats::default` (all counters zero). -/
def PlanStats.default : PlanStats :=
  { total_files := 0, total_bytes := 0, copy_count := 0,
    overwrite_count := 0, delete_count := 0, skip_count := 0 }

/-- From `src/src/diff/engine.rs`: diff plan containing actions and
statistics. -/
structure DiffPlan where
  actions : List SyncAction
  stats : PlanStats
deriving DecidableEq, Repr

/-- Embeds `DiffPlan::new`. -/
def DiffPlan.new : DiffPlan :=
  { actions := [], stats := PlanStats.default }

/-- Embeds `DiffPlan::add_action` from `src/src/diff/engine.rs`: push the action and
update statistics according to its variant (`Move` updates nothing). -/
def DiffPlan.add_action (plan : DiffPlan) (action : SyncAction) : DiffPlan :=
  let stats :=
    match action with
    | .CopyNew entry =>
      { plan.stats with
        copy_count := plan.stats.copy_count + 1,
        total_files := plan.stats.total_files + 1,
        total_bytes := plan.stats.total_bytes + entry.size }
    | .Overwrite entry =>
      { plan.stats with
        overwrite_count := plan.stats.overwrite_count + 1,
        total_files := plan.stats.total_files + 1,
        total_bytes := plan.stats.total_bytes + entry.size }
    | .Delete _ => { plan.stats with delete_count := plan.stats.delete_count + 1 }
    | .Skip => { plan.stats with skip_count := plan.stats.skip_count + 1 }
    | .Move _ _ => plan.stats
  { actions := plan.actions ++ [action], stats := stats }

/-- The comparator of `DiffPlan::sort_by_path` as a boolean "less or equal"
(`Ordering != Greater`): actions with paths are ordered by path, and actions
without a path (`Skip`) sort after those with one. -/
def actionLe (a b : SyncAction) : Bool :=
  match a.path, b.path with
  | some pa, some pb => pathLe pa pb
  | some _, none => true
  | none, some _ => false
  | none, none => true

/-- Embeds `DiffPlan::sort_by_path`: Rust `sort_by` is a stable sort, modelled by
`List.mergeSort` with the same comparator. -/
def DiffPlan.sort_by_path (plan : DiffPlan) : DiffPlan :=
  { plan with actions := plan.actions.mergeSort actionLe }

/-- Embeds `compare_files` from `src/src/diff/compare.rs`.  `computeHash` is the
filesystem hashing oracle standing for `compute_hash`; `none` models a hash
error.  Priority order as in the source: size check, then checksum mode
(cached hash or hash computed from the config root joined with the relative
path, errors fall back to `Overwrite`), then mtime comparison. -/
def compare_files (computeHash : Path → Option Nat) (src dest : FileEntry)
    (config : Config) : SyncAction :=
  if src.size ≠ dest.size then
    SyncAction.Overwrite src
  else if config.checksum_mode then
    let src_path := config.source ++ src.path
    let dest_path := config.destination ++ dest.path
    match (match src.hash with | some h => some h | none => computeHash src_path) with
    | none => SyncAction.Overwrite src
    | some src_hash =>
      match (match dest.hash with | some h => some h | none => computeHash dest_path) with
      | none => SyncAction.Overwrite src
      | some dest_hash =>
        if src_hash ≠ dest_hash then SyncAction.Overwrite src else SyncAction.Skip
  else
    match compare src.mtime dest.mtime with
    | .gt => SyncAction.Overwrite src
    | .lt => SyncAction.Skip
    | .eq => SyncAction.Skip

/-- Embeds `build_dest_parent_prefixes` from `src/src/diff/plan.rs`: the set of all
non-empty proper ancestors of destination paths.  The Rust `HashSet` is
modelled as a list used only through membership. -/
def build_dest_parent_prefixes (dest_tree : FileTree) : List Path :=
  dest_tree.entries.flatMap
    (fun kv => ((ancestorsDesc kv.1).drop 1).filter (fun a => a ≠ []))

/-- Embeds `conflict_delete_roots` from `src/src/diff/plan.rs`: first the longest
non-empty proper ancestor of the source path that the destination holds as a
file (break on the first hit), then the source path itself when the
destination holds entries beneath it. -/
def conflict_delete_roots (src_path : Path) (dest_tree : FileTree)
    (dest_parent_dirs : List Path) : List Path :=
  let r1 :=
    match (((ancestorsDesc src_path).drop 1).filter (fun a => a ≠ [])).find?
        (fun a => dest_tree.contains a) with
    | some a => [a]
    | none => []
  let r2 := if src_path ∈ dest_parent_dirs then [src_path] else []
  r1 ++ r2

/-- Embeds `is_covered_by_planned_delete` from `src/src/diff/plan.rs`: some
non-empty ancestor of the path (the path itself included, since Rust
`ancestors()` yields the path first) is a planned delete. -/
def is_covered_by_planned_delete (p : Path) (planned_deletes : List Path) : Bool :=
  (ancestorsDesc p).any (fun a => !a.isEmpty && decide (a ∈ planned_deletes))

/-- One pass of the conflict-delete loop body in `generate_sync_plan`:
`planned_deletes.insert` returns whether the path was newly inserted, and
only then is a `Delete` action emitted. -/
def conflictStep (st : List Path × DiffPlan) (c : Path) : List Path × DiffPlan :=
  if c ∈ st.1 then st else (c :: st.1, st.2.add_action (SyncAction.Delete c))

/-- The body of the loop over source entries in `generate_sync_plan`:
conflict deletes first (when deletes are allowed), then `CopyNew` for paths
missing from the destination, else the `compare_files` verdict (`Skip` is
recorded explicitly). -/
def srcStep (computeHash : Path → Option Nat) (dest_tree : FileTree)
    (dest_parent_dirs : List Path) (allow_deletes : Bool) (config : Config)
    (st : List Path × DiffPlan) (kv : Path × FileEntry) : List Path × DiffPlan :=
  let st :=
    if allow_deletes then
      (conflict_delete_roots kv.1 dest_tree dest_parent_dirs).foldl conflictStep st
    else st
  match dest_tree.get kv.1 with
  | none => (st.1, st.2.add_action (SyncAction.CopyNew kv.2))
  | some dest_entry =>
    let action := compare_files computeHash kv.2 dest_entry config
    if action.is_skip then (st.1, st.2.add_action SyncAction.Skip)
    else (st.1, st.2.add_action action)

/-- The body of the orphan loop in `generate_sync_plan`: a destination path
absent from the source, not already a planned delete and not covered by a
planned ancestor delete, becomes a `Delete` action. -/
def orphanStep (src_tree : FileTree) (planned_deletes : List Path)
    (plan : DiffPlan) (kv : Path × FileEntry) : DiffPlan :=
  if !src_tree.contains kv.1 && !decide (kv.1 ∈ planned_deletes) &&
      !is_covered_by_planned_delete kv.1 planned_deletes then
    plan.add_action (SyncAction.Delete kv.1)
  else plan

/-- The `planned_deletes` set as it stands after the loop over source
entries in `generate_sync_plan`. -/
def plannedDeletesAfterSrc (computeHash : Path → Option Nat)
    (src_tree dest_tree : FileTree) (config : Config) : List Path :=
  (src_tree.entries.foldl
    (srcStep computeHash dest_tree (build_dest_parent_prefixes dest_tree)
      (decide (config.delete_mode ≠ DeleteMode.None)) config)
    ([], DiffPlan.new)).1

/-- Embeds `generate_sync_plan` from `src/src/diff/plan.rs`. -/
def generate_sync_plan (computeHash : Path → Option Nat)
    (src_tree dest_tree : FileTree) (config : Config) : DiffPlan :=
  let dest_parent_dirs := build_dest_parent_prefixes dest_tree
  let allow_deletes := decide (config.delete_mode ≠ DeleteMode.None)
  let st := src_tree.entries.foldl
    (srcStep computeHash dest_tree dest_parent_dirs allow_deletes config)
    ([], DiffPlan.new)
  let plan :=
    if allow_deletes then dest_tree.entries.foldl (orphanStep src_tree st.1) st.2
    else st.2
  plan.sort_by_path

/-- Embeds `should_include_path` from `src/src/scanner/walker.rs`.  Compiled glob
patterns are modelled by their matching behavior `Path → Bool`
(`Pattern::matches_path`). -/
def should_include_path (relative_path : Path)
    (exclude_patterns include_patterns : List (Path → Bool)) : Bool :=
  let excluded := exclude_patterns.any (fun pattern => pattern relative_path)
  if !excluded then true
  else include_patterns.any (fun pattern => pattern relative_path)

/-- From `src/src/types/error.rs`.  The wrapped `std::io::Error` of the `Io`
variant is modelled by its display string. -/
inductive KopyError where
  | Io (msg : String)
  | Config (msg : String)
  | Validation (msg : String)
  | PermissionDenied (path : Path)
  | DiskFull (available needed : Nat)
  | ChecksumMismatch (path : Path)
  | TransferInterrupted (path : Path) (offset : Nat)
  | SshError (msg : String)
  | DryRun
deriving DecidableEq, Repr

/-- The `Display` rendering of `KopyError` (the `thiserror` format strings in
`src/src/types/error.rs`). -/
def displayKopyError : KopyError → String
  | .Io msg => "IO error: " ++ msg
  | .Config msg => "Configuration error: " ++ msg
  | .Validation msg => "Validation error: " ++ msg
  | .PermissionDenied p => "Permission denied: " ++ p.display
  | .DiskFull available needed =>
    "Disk full: " ++ toString available ++ " bytes available, " ++
      toString needed ++ " bytes needed"
  | .ChecksumMismatch p => "Checksum mismatch: " ++ p.display
  | .TransferInterrupted p offset =>
    "Transfer interrupted: " ++ p.display ++ " at offset " ++ toString offset ++ " bytes"
  | .SshError msg => "SSH connection failed: " ++ msg
  | .DryRun => "Dry run mode: no changes were made"

/-- Embeds `clone_error_for_event` from `src/src/executor/mod.rs`: a field-by-field
clone of the error (the `Io` case rebuilds the error from kind and message,
which the string model preserves). -/
def clone_error_for_event : KopyError → KopyError
  | .Io msg => .Io msg
  | .Config msg => .Config msg
  | .Validation msg => .Validation msg
  | .PermissionDenied p => .PermissionDenied p
  | .DiskFull available needed => .DiskFull available needed
  | .ChecksumMismatch p => .ChecksumMismatch p
  | .TransferInterrupted p offset => .TransferInterrupted p offset
  | .SshError msg => .SshError msg
  | .DryRun => .DryRun

/-- Embeds `build_error_summary` from `src/src/executor/mod.rs`: up to three
example failures joined into one message. -/
def build_error_summary (errors : List (Option Path × KopyError)) : String :=
  let preview := String.intercalate "; "
    ((errors.take 3).map (fun pe =>
      (match pe.1 with
       | some p => p.display
       | none => "<unknown>") ++ ": " ++ displayKopyError pe.2))
  "Sync completed with " ++ toString errors.length ++
    " error(s). Example failures: " ++ preview

/-- From `src/src/executor/mod.rs`: execution progress statistics. -/
structure ExecutionStats where
  total_actions : Nat
  completed_actions : Nat
  failed_actions : Nat
  bytes_copied : Nat
deriving DecidableEq, Repr

/-- From `src/src/executor/mod.rs`: events emitted while executing a plan. -/
inductive ExecutionEvent where
  | ActionStart (index total : Nat) (action : String) (path : Option Path)
  | ActionSuccess (index total : Nat) (action : String) (path : Option Path)
      (bytes_copied : Nat)
  | ActionError (index total : Nat) (action : String) (path : Option Path)
      (error : KopyError)
  | Complete (stats : ExecutionStats)
deriving DecidableEq, Repr

/-- The sequential loop of `execute_plan`, with the callback's event stream
made explicit as an accumulated list.  `execA` is the oracle standing for
`execute_action` (filesystem effects abstracted); indices are 1-based. -/
def execLoop (execA : SyncAction → Except KopyError Nat) (total : Nat) :
    List SyncAction → Nat → ExecutionStats → List (Option Path × KopyError) →
    List ExecutionEvent →
    ExecutionStats × List (Option Path × KopyError) × List ExecutionEvent
  | [], _, stats, errors, events => (stats, errors, events)
  | action :: rest, index, stats, errors, events =>
    let events := events ++
      [ExecutionEvent.ActionStart index total action.action_name action.path]
    match execA action with
    | .ok bytes =>
      execLoop execA total rest (index + 1)
        { stats with
          completed_actions := stats.completed_actions + 1,
          bytes_copied := stats.bytes_copied + bytes }
        errors
        (events ++
          [ExecutionEvent.ActionSuccess index total action.action_name action.path bytes])
    | .error err =>
      execLoop execA total rest (index + 1)
        { stats with failed_actions := stats.failed_actions + 1 }
        (errors ++ [(action.path, err)])
        (events ++
          [ExecutionEvent.ActionError index total action.action_name action.path
            (clone_error_for_event err)])

/-- Embeds `execute_plan` from `src/src/executor/mod.rs`: run every action in order,
emit the terminal `Complete` event, and return either the stats or a
`Validation` summary when any action failed.  The pair holds the full event
stream and the function result. -/
def execute_plan (execA : SyncAction → Except KopyError Nat) (plan : DiffPlan) :
    List ExecutionEvent × Except KopyError ExecutionStats :=
  let total := plan.actions.length
  let init : ExecutionStats :=
    { total_actions := total, completed_actions := 0, failed_actions := 0,
      bytes_copied := 0 }
  let res := execLoop execA total plan.actions 1 init [] []
  let events := res.2.2 ++ [ExecutionEvent.Complete res.1]
  if res.2.1.isEmpty then
    (events, .ok res.1)
  else
    (events, .error (.Validation (build_error_summary res.2.1)))

/-- The per-action event pairs `execute_plan` is expected to emit, written
declaratively: for the action at 1-based index `i`, an `ActionStart`
followed by `ActionSuccess` or `ActionError` according to the oracle. -/
def specEvents (execA : SyncAction → Except KopyError Nat) (total : Nat) :
    Nat → List SyncAction → List ExecutionEvent
  | _, [] => []
  | i, action :: rest =>
    ExecutionEvent.ActionStart i total action.action_name action.path ::
    (match execA action with
     | .ok bytes =>
       ExecutionEvent.ActionSuccess i total action.action_name action.path bytes
     | .error err =>
       ExecutionEvent.ActionError i total action.action_name action.path
         (clone_error_for_event err)) ::
    specEvents execA total (i + 1) rest

/-- The failures `execute_plan` is expected to record, in plan order. -/
def specFailures (execA : SyncAction → Except KopyError Nat)
    (actions : List SyncAction) : List (Option Path × KopyError) :=
  actions.filterMap (fun action =>
    match execA action with
    | .ok _ => none
    | .error err => some (action.path, err))

/-- The statistics `execute_plan` is expected to return. -/
def specStats (execA : SyncAction → Except KopyError Nat)
    (actions : List SyncAction) : ExecutionStats :=
  { total_actions := actions.length,
    completed_actions := (actions.filter (fun a => (execA a).isOk)).length,
    failed_actions := (actions.filter (fun a => ¬(execA a).isOk)).length,
    bytes_copied := (actions.map (fun a =>
      match execA a with | .ok bytes => bytes | .error _ => 0)).sum }

/-- A `DiffPlan` built from the empty plan by a sequence of `add_action`
calls. -/
def buildPlan (actions : List SyncAction) : DiffPlan :=
  actions.foldl DiffPlan.add_action DiffPlan.new

/-- Sum of `entry.size` over the `CopyNew` and `Overwrite` actions of a
list. -/
def sumTransferBytes (actions : List SyncAction) : Nat :=
  (actions.map (fun a =>
    match a with
    | .CopyNew entry => entry.size
    | .Overwrite entry => entry.size
    | _ => 0)).sum

/-- The digest `compare_files` works with for one side in checksum mode:
the digest cached in the entry when present, otherwise the hashing oracle
applied to the tree root joined with the entry's relative path. -/
def obtainedDigest (computeHash : Path → Option Nat) (root : Path)
    (e : FileEntry) : Option Nat :=
  match e.hash with
  | some h => some h
  | none => computeHash (root ++ e.path)

/-- A hashing oracle for concrete runs in which every hash computation
fails. -/
def failHash : Path → Option Nat :=
  fun _ => none

/-- The configuration the repository's diff tests build
(`create_test_config` in `src/tests/diff_tests.rs`), with the given delete
mode. -/
def testConfig (mode : DeleteMode) : Config :=
  { source := ["src"], destination := ["dest"], dry_run := false,
    checksum_mode := false, delete_mode := mode, exclude_patterns := [],
    include_patterns := [], threads := 4, scan_mode := .Auto,
    bandwidth_limit := none, backup_dir := none, watch := false,
    watch_settle := 2 }

/-- The counter invariant of a diff plan: transfer counters agree with the
action list. -/
def planCountersOk (plan : DiffPlan) : Prop :=
  plan.stats.total_files = plan.stats.copy_count + plan.stats.overwrite_count ∧
  plan.stats.total_bytes = sumTransferBytes plan.actions

/-- The aggregate invariant of a file tree: counters agree with the entry
map. -/
def treeAggregatesOk (t : FileTree) : Prop :=
  t.total_files = t.entries.length ∧ t.total_size = sumEntrySizes t.entries

/-- The invariant tying the `planned_deletes` set to the `Delete` actions
emitted so far during the source loop of `generate_sync_plan`: every planned
path has exactly one `Delete` action, every other path none. -/
def planDelCountInv (st : List Path × DiffPlan) : Prop :=
  ∀ c : Path, List.count (SyncAction.Delete c) st.2.actions = if c ∈ st.1 then 1 else 0

/-- A destination tree with a single file `old.txt`, for concrete runs. -/
def sampleDestTree : FileTree :=
  buildTree ["dest"] [(["old.txt"], FileEntry.new ["old.txt"] 9 900 420)]

/-- Source tree holding a file at `a`, for the directory/file conflict run. -/
def conflictSrcTree : FileTree :=
  buildTree ["src"] [(["a"], FileEntry.new ["a"] 10 1000 420)]

/-- Destination tree holding `a/old.txt` (entries strictly beneath `a`), for
the directory/file conflict run. -/
def conflictDestTree : FileTree :=
  buildTree ["dest"] [(["a", "old.txt"], FileEntry.new ["a", "old.txt"] 4 900 420)]

section Lemmas

instance : Inhabited FileEntry :=
  ⟨FileEntry.new [] 0 0 0⟩

instance : Nonempty FileEntry :=
  ⟨FileEntry.new [] 0 0 0⟩

/-! ### Association-list and counting helpers -/

theorem lookupEntry_eq_none_iff {es : List (Path × FileEntry)} {p : Path} :
    lookupEntry es p = none ↔ ∀ kv ∈ es, kv.1 ≠ p := by
  induction es with
  | nil => simp [lookupEntry]
  | cons kv rest ih =>
    by_cases h : kv.1 = p
    · simp [lookupEntry, h]
    · simp [lookupEntry, h, ih]

theorem lookupEntry_isSome_of_mem {es : List (Path × FileEntry)} {p : Path}
    {e : FileEntry} (h : (p, e) ∈ es) : (lookupEntry es p).isSome := by
  induction es with
  | nil => simp at h
  | cons kv rest ih =>
    rcases List.mem_cons.mp h with h' | h'
    · simp [lookupEntry, ← h']
    · by_cases hk : kv.1 = p
      · simp [lookupEntry, hk]
      · simpa [lookupEntry, hk] using ih h'

theorem count_append_singleton {α : Type} [DecidableEq α] (x y : α) (l : List α) :
    List.count x (l ++ [y]) = List.count x l + if y = x then 1 else 0 := by
  simp [List.count_append, List.count_cons]

/-! ### Plan counter invariant (C3) -/

theorem sumTransferBytes_append (l₁ l₂ : List SyncAction) :
    sumTransferBytes (l₁ ++ l₂) = sumTransferBytes l₁ + sumTransferBytes l₂ := by
  simp [sumTransferBytes]

theorem planCountersOk_add_action {plan : DiffPlan} (h : planCountersOk plan)
    (action : SyncAction) : planCountersOk (plan.add_action action) := by
  obtain ⟨h1, h2⟩ := h
  cases action <;>
    simp_all [planCountersOk, DiffPlan.add_action, sumTransferBytes_append,
      sumTransferBytes] <;> omega

theorem planCountersOk_foldl {plan : DiffPlan} (h : planCountersOk plan)
    (l : List SyncAction) : planCountersOk (l.foldl DiffPlan.add_action plan) := by
  induction l generalizing plan with
  | nil => exact h
  | cons a rest ih => exact ih (planCountersOk_add_action h a)

/-! ### Tree aggregate invariant (C8) -/

theorem replaceEntry_length (es : List (Path × FileEntry)) (p : Path) (e : FileEntry) :
    (replaceEntry es p e).length = es.length := by
  induction es with
  | nil => rfl
  | cons kv rest ih =>
    by_cases h : kv.1 = p <;> simp [replaceEntry, h, ih]

theorem replaceEntry_sum {es : List (Path × FileEntry)} {p : Path} {old : FileEntry}
    (e : FileEntry) (h : lookupEntry es p = some old) :
    sumEntrySizes (replaceEntry es p e) + old.size = sumEntrySizes es + e.size := by
  induction es with
  | nil => simp [lookupEntry] at h
  | cons kv rest ih =>
    by_cases hk : kv.1 = p
    · simp [lookupEntry, hk] at h
      simp [replaceEntry, hk, sumEntrySizes, h]
      omega
    · simp [lookupEntry, hk] at h
      have := ih h
      simp [replaceEntry, hk, sumEntrySizes] at *
      omega

theorem sumEntrySizes_append (l₁ l₂ : List (Path × FileEntry)) :
    sumEntrySizes (l₁ ++ l₂) = sumEntrySizes l₁ + sumEntrySizes l₂ := by
  simp [sumEntrySizes]

theorem lookupEntry_size_le_sum {es : List (Path × FileEntry)} {p : Path}
    {old : FileEntry} (h : lookupEntry es p = some old) :
    old.size ≤ sumEntrySizes es ∧ 1 ≤ es.length := by
  induction es with
  | nil => simp [lookupEntry] at h
  | cons kv rest ih =>
    by_cases hk : kv.1 = p
    · simp [lookupEntry, hk] at h
      subst h
      simp only [sumEntrySizes, List.map_cons, List.sum_cons, List.length_cons]
      omega
    · simp [lookupEntry, hk] at h
      have := ih h
      simp only [sumEntrySizes, List.map_cons, List.sum_cons, List.length_cons] at this ⊢
      omega

theorem treeAggregatesOk_insert {t : FileTree} (h : treeAggregatesOk t)
    (p : Path) (e : FileEntry) : treeAggregatesOk (t.insert p e) := by
  obtain ⟨h1, h2⟩ := h
  unfold FileTree.insert
  cases hl : t.get p with
  | none =>
    refine ⟨?_, ?_⟩
    · simp [h1]
    · simp [sumEntrySizes_append, h2, sumEntrySizes]
  | some old =>
    have hs := @replaceEntry_sum t.entries p old e hl
    have hb := @lookupEntry_size_le_sum t.entries p old hl
    refine ⟨?_, ?_⟩
    · simp [replaceEntry_length]
      omega
    · simp only
      omega

end Lemmas

/-! ## Claims -/

/-- Claim C10: `DiffPlan::add_action` on a `Move` action appends the action to
the action list but leaves all six counters untouched. -/
theorem move_action_uncounted (plan : DiffPlan) (f t : Path) :
    (plan.add_action (SyncAction.Move f t)).actions =
      plan.actions ++ [SyncAction.Move f t] ∧
    (plan.add_action (SyncAction.Move f t)).stats = plan.stats :=
  ⟨rfl, rfl⟩

/-- Claim C3: For every plan built by a sequence of `add_action` calls,
`total_files = copy_count + overwrite_count` and `total_bytes` is the sum of
`entry.size` over the `CopyNew` and `Overwrite` actions of the action list;
and `sort_by_path` changes none of the six counters of any plan. -/
theorem plan_counters_invariant (l : List SyncAction) :
    (buildPlan l).stats.total_files =
      (buildPlan l).stats.copy_count + (buildPlan l).stats.overwrite_count ∧
    (buildPlan l).stats.total_bytes = sumTransferBytes (buildPlan l).actions ∧
    ∀ plan : DiffPlan, plan.sort_by_path.stats = plan.stats := by
  have h : planCountersOk (buildPlan l) :=
    planCountersOk_foldl (by exact ⟨rfl, rfl⟩) l
  exact ⟨h.1, h.2, fun _ => rfl⟩

/-- Claim C8: For every tree built by a sequence of `insert` calls,
`total_files` is the number of entries and `total_size` the sum of their
sizes; replacement of an existing path preserves both. -/
theorem tree_aggregates_invariant (root : Path) (inserts : List (Path × FileEntry)) :
    (buildTree root inserts).total_files = (buildTree root inserts).entries.length ∧
    (buildTree root inserts).total_size = sumEntrySizes (buildTree root inserts).entries := by
  suffices h : ∀ (t : FileTree), treeAggregatesOk t →
      treeAggregatesOk (inserts.foldl (fun t kv => t.insert kv.1 kv.2) t) from
    h (FileTree.new root) ⟨rfl, rfl⟩
  induction inserts with
  | nil => exact fun t ht => ht
  | cons kv rest ih =>
    exact fun t ht => ih _ (treeAggregatesOk_insert ht kv.1 kv.2)

/-- Claim C9: The scanner's CLI filter: a path matched by no exclude pattern
is accepted whatever the include patterns are, and an excluded path is
accepted exactly when some include pattern matches it. -/
theorem include_overrides_exclude (relative_path : Path)
    (exclude_patterns include_patterns : List (Path → Bool)) :
    (exclude_patterns.any (fun pattern => pattern relative_path) = false →
      should_include_path relative_path exclude_patterns include_patterns = true) ∧
    (exclude_patterns.any (fun pattern => pattern relative_path) = true →
      (should_include_path relative_path exclude_patterns include_patterns = true ↔
        include_patterns.any (fun pattern => pattern relative_path) = true)) := by
  constructor
  · intro h
    simp [should_include_path, h]
  · intro h
    simp [should_include_path, h]

/-- Witness for `include_overrides_exclude` at concrete pattern lists. -/
theorem include_overrides_exclude_witness :
    ([fun p => decide (p = (["log"] : Path))].any
        (fun pattern => pattern (["log"] : Path)) = true) ∧
    (should_include_path (["log"] : Path)
        [fun p => decide (p = (["log"] : Path))]
        [fun p => decide (p = (["log"] : Path))] = true ↔
      ([fun p => decide (p = (["log"] : Path))].any
        (fun pattern => pattern (["log"] : Path)) = true)) :=
  ⟨by decide,
    (include_overrides_exclude (["log"] : Path)
      [fun p => decide (p = (["log"] : Path))]
      [fun p => decide (p = (["log"] : Path))]).2 (by decide)⟩

/-- Claim C1: `compare_files` never looks at symlink metadata: on the
repository's own test inputs (`test_compare_symlink_target_mismatch` and
`test_compare_file_kind_mismatch_symlink_vs_regular` in
`src/tests/diff_tests.rs`, which assert `Overwrite`) it falls through to the
metadata tier and returns `Skip`. -/
theorem compare_files_ignores_symlink_metadata :
    compare_files failHash (FileEntry.new_symlink ["link"] 0 1000 511 ["a.txt"])
        (FileEntry.new_symlink ["link"] 0 2000 511 ["b.txt"])
        (testConfig DeleteMode.None) = SyncAction.Skip ∧
    compare_files failHash (FileEntry.new_symlink ["entry"] 0 1000 511 ["real.txt"])
        (FileEntry.new ["entry"] 0 1000 420)
        (testConfig DeleteMode.None) = SyncAction.Skip :=
  ⟨by decide, by decide⟩

/-- Claim C5: For entries that are not symlinks, with checksum mode disabled:
differing sizes give `Overwrite(src)`; with equal sizes the result is
`Overwrite(src)` exactly when the source mtime is strictly newer, and `Skip`
when the source is as old as or older than the destination. -/
theorem size_then_mtime_comparison (computeHash : Path → Option Nat)
    (src dest : FileEntry) (config : Config)
    (hcm : config.checksum_mode = false)
    (_hs1 : src.is_symlink = false) (_hs2 : dest.is_symlink = false) :
    (src.size ≠ dest.size →
      compare_files computeHash src dest config = SyncAction.Overwrite src) ∧
    (src.size = dest.size →
      (dest.mtime < src.mtime →
        compare_files computeHash src dest config = SyncAction.Overwrite src) ∧
      (src.mtime ≤ dest.mtime →
        compare_files computeHash src dest config = SyncAction.Skip)) := by
  constructor
  · intro h
    simp [compare_files, h]
  · intro h
    constructor
    · intro hm
      have hc : compare src.mtime dest.mtime = Ordering.gt := Nat.compare_eq_gt.mpr hm
      simp [compare_files, h, hcm, hc]
    · intro hm
      rcases Nat.lt_or_ge src.mtime dest.mtime with h1 | h1
      · have hc : compare src.mtime dest.mtime = Ordering.lt := Nat.compare_eq_lt.mpr h1
        simp [compare_files, h, hcm, hc]
      · have he : src.mtime = dest.mtime := Nat.le_antisymm hm h1
        have hc : compare src.mtime dest.mtime = Ordering.eq := Nat.compare_eq_eq.mpr he
        simp [compare_files, h, hcm, hc]

/-- Witness for `size_then_mtime_comparison`: equal sizes and a strictly
newer source give `Overwrite`. -/
theorem size_then_mtime_comparison_witness :
    (testConfig DeleteMode.None).checksum_mode = false ∧
    compare_files failHash (FileEntry.new ["f.txt"] 1024 2000 420)
        (FileEntry.new ["f.txt"] 1024 1000 420) (testConfig DeleteMode.None) =
      SyncAction.Overwrite (FileEntry.new ["f.txt"] 1024 2000 420) :=
  ⟨rfl,
    ((size_then_mtime_comparison failHash (FileEntry.new ["f.txt"] 1024 2000 420)
      (FileEntry.new ["f.txt"] 1024 1000 420) (testConfig DeleteMode.None)
      rfl rfl rfl).2 rfl).1 (by decide)⟩

/-- Claim C6: With checksum mode on and equal sizes, `compare_files` compares
the obtained digests (cached in the entry when present, otherwise computed
from the config root joined with the relative path): a failure to obtain
either digest gives `Overwrite(src)`, equal digests give `Skip`, and
differing digests give `Overwrite(src)`. -/
theorem checksum_mode_digest_comparison (computeHash : Path → Option Nat)
    (src dest : FileEntry) (config : Config)
    (hcm : config.checksum_mode = true) (hsz : src.size = dest.size) :
    (obtainedDigest computeHash config.source src = none →
      compare_files computeHash src dest config = SyncAction.Overwrite src) ∧
    (∀ a, obtainedDigest computeHash config.source src = some a →
      obtainedDigest computeHash config.destination dest = none →
      compare_files computeHash src dest config = SyncAction.Overwrite src) ∧
    (∀ a b, obtainedDigest computeHash config.source src = some a →
      obtainedDigest computeHash config.destination dest = some b →
      (a = b → compare_files computeHash src dest config = SyncAction.Skip) ∧
      (a ≠ b → compare_files computeHash src dest config = SyncAction.Overwrite src)) := by
  have e1 : (match src.hash with
      | some h => some h
      | none => computeHash (config.source ++ src.path)) =
      obtainedDigest computeHash config.source src := rfl
  have e2 : (match dest.hash with
      | some h => some h
      | none => computeHash (config.destination ++ dest.path)) =
      obtainedDigest computeHash config.destination dest := rfl
  refine ⟨?_, ?_, ?_⟩
  · intro h
    simp [compare_files, hsz, hcm, e1, h]
  · intro a ha hb
    simp [compare_files, hsz, hcm, e1, e2, ha, hb]
  · intro a b ha hb
    constructor
    · intro he
      simp [compare_files, hsz, hcm, e1, e2, ha, hb, he]
    · intro hne
      simp [compare_files, hsz, hcm, e1, e2, ha, hb, hne]

/-- Witness for `checksum_mode_digest_comparison`: equal cached digests give
`Skip`. -/
theorem checksum_mode_digest_comparison_witness :
    ({ testConfig DeleteMode.None with checksum_mode := true } : Config).checksum_mode = true ∧
    compare_files failHash
        { FileEntry.new ["f.txt"] 7 2000 420 with hash := some 5 }
        { FileEntry.new ["f.txt"] 7 1000 420 with hash := some 5 }
        { testConfig DeleteMode.None with checksum_mode := true } = SyncAction.Skip :=
  ⟨rfl,
    (((checksum_mode_digest_comparison failHash
      { FileEntry.new ["f.txt"] 7 2000 420 with hash := some 5 }
      { FileEntry.new ["f.txt"] 7 1000 420 with hash := some 5 }
      { testConfig DeleteMode.None with checksum_mode := true }
      rfl rfl).2.2 5 5 rfl rfl).1 rfl)⟩

/-- The executor loop, described declaratively: it threads the statistics,
appends one failure record per failing action, and appends the per-action
event pairs, whatever state it starts from. -/
theorem execLoop_spec (execA : SyncAction → Except KopyError Nat) (total : Nat)
    (actions : List SyncAction) :
    ∀ (index : Nat) (stats : ExecutionStats)
      (errors : List (Option Path × KopyError)) (events : List ExecutionEvent),
    execLoop execA total actions index stats errors events =
      ({ total_actions := stats.total_actions,
         completed_actions :=
           stats.completed_actions + (actions.filter (fun a => (execA a).isOk)).length,
         failed_actions :=
           stats.failed_actions + (actions.filter (fun a => ¬(execA a).isOk)).length,
         bytes_copied := stats.bytes_copied + (actions.map (fun a =>
           match execA a with | .ok bytes => bytes | .error _ => 0)).sum },
       errors ++ specFailures execA actions,
       events ++ specEvents execA total index actions) := by
  induction actions with
  | nil =>
    intro index stats errors events
    simp [execLoop, specFailures, specEvents]
  | cons a rest ih =>
    intro index stats errors events
    cases hA : execA a with
    | ok bytes =>
      simp only [execLoop, hA, ih]
      simp [specFailures, specEvents, List.filter_cons, hA, Except.isOk, Except.toBool,
        Prod.mk.injEq, ExecutionStats.mk.injEq, List.append_assoc]
      omega
    | error err =>
      simp only [execLoop, hA, ih]
      simp [specFailures, specEvents, List.filter_cons, hA, Except.isOk, Except.toBool,
        Prod.mk.injEq, ExecutionStats.mk.injEq, List.append_assoc]
      omega

/-- Claim C7: `execute_plan` emits, in plan order, `ActionStart` then
`ActionSuccess` or `ActionError` for every action and one terminal
`Complete`; failures do not stop later actions; the result is
`Validation(summary)` exactly when some action failed (the summary using at
most the first three failures), and the stats otherwise. -/
theorem executor_event_stream_and_summary (execA : SyncAction → Except KopyError Nat)
    (plan : DiffPlan) :
    (execute_plan execA plan).1 =
      specEvents execA plan.actions.length 1 plan.actions ++
        [ExecutionEvent.Complete (specStats execA plan.actions)] ∧
    (specFailures execA plan.actions = [] →
      (execute_plan execA plan).2 = .ok (specStats execA plan.actions)) ∧
    (specFailures execA plan.actions ≠ [] →
      (execute_plan execA plan).2 =
        .error (.Validation (build_error_summary (specFailures execA plan.actions)))) ∧
    (∀ errs errs' : List (Option Path × KopyError), errs.take 3 = errs'.take 3 →
      errs.length = errs'.length → build_error_summary errs = build_error_summary errs') := by
  have h := execLoop_spec execA plan.actions.length plan.actions 1
    { total_actions := plan.actions.length, completed_actions := 0,
      failed_actions := 0, bytes_copied := 0 } [] []
  refine ⟨?_, ?_, ?_, ?_⟩
  · by_cases hc : specFailures execA plan.actions = [] <;>
      simp [execute_plan, h, hc, specStats]
  · intro hf
    simp [execute_plan, h, hf, specStats]
  · intro hf
    simp [execute_plan, h, List.isEmpty_iff, hf, specStats]
  · intro errs errs' h1 h2
    unfold build_error_summary
    rw [h1, h2]

/-- Witness for `executor_event_stream_and_summary`: a two-action plan whose
`Delete` fails yields the `Validation` summary. -/
theorem executor_event_stream_and_summary_witness :
    specFailures
        (fun a => if a.is_skip then Except.ok 0
          else Except.error (KopyError.SshError "down"))
        ({ actions := [SyncAction.Skip, SyncAction.Delete ["gone"]],
           stats := PlanStats.default } : DiffPlan).actions ≠ [] ∧
    (execute_plan
        (fun a => if a.is_skip then Except.ok 0
          else Except.error (KopyError.SshError "down"))
        ({ actions := [SyncAction.Skip, SyncAction.Delete ["gone"]],
           stats := PlanStats.default } : DiffPlan)).2 =
      .error (.Validation (build_error_summary (specFailures
        (fun a => if a.is_skip then Except.ok 0
          else Except.error (KopyError.SshError "down"))
        ({ actions := [SyncAction.Skip, SyncAction.Delete ["gone"]],
           stats := PlanStats.default } : DiffPlan).actions))) :=
  ⟨by decide,
    (executor_event_stream_and_summary
      (fun a => if a.is_skip then Except.ok 0
        else Except.error (KopyError.SshError "down"))
      { actions := [SyncAction.Skip, SyncAction.Delete ["gone"]],
        stats := PlanStats.default }).2.2.1 (by decide)⟩

section PlanLemmas

/-! ### Ordering lemmas for the sort comparator -/

theorem pathLe_trans {a b c : Path} (h1 : pathLe a b = true) (h2 : pathLe b c = true) :
    pathLe a c = true := by
  simp only [pathLe, decide_eq_true_eq] at *
  exact le_trans h1 h2

theorem pathLe_total (a b : Path) : (pathLe a b || pathLe b a) = true := by
  simp only [pathLe, Bool.or_eq_true, decide_eq_true_eq]
  exact le_total a b

theorem actionLe_trans (a b c : SyncAction) (h1 : actionLe a b = true)
    (h2 : actionLe b c = true) : actionLe a c = true := by
  unfold actionLe at *
  cases ha : a.path <;> cases hb : b.path <;> cases hc : c.path <;>
    simp [ha, hb, hc] at * <;> exact pathLe_trans h1 h2

theorem actionLe_total (a b : SyncAction) : (actionLe a b || actionLe b a) = true := by
  unfold actionLe
  cases ha : a.path <;> cases hb : b.path <;> simp [ha, hb] <;>
    simpa using pathLe_total _ _

theorem actionLe_delete_copynew {a : Path} {e : FileEntry} (h : e.path = a) :
    actionLe (SyncAction.Delete a) (SyncAction.CopyNew e) = true := by
  simp [actionLe, SyncAction.path, h, pathLe]

/-! ### `compare_files` returns only `Skip` or `Overwrite` -/

theorem compare_files_skip_or_overwrite (computeHash : Path → Option Nat)
    (src dest : FileEntry) (config : Config) :
    compare_files computeHash src dest config = SyncAction.Skip ∨
    compare_files computeHash src dest config = SyncAction.Overwrite src := by
  unfold compare_files
  by_cases h1 : src.size ≠ dest.size
  · simp [h1]
  · simp only [h1, if_false]
    by_cases h2 : config.checksum_mode
    · simp only [h2, if_true]
      cases hs : (match src.hash with
          | some h => some h
          | none => computeHash (config.source ++ src.path)) with
      | none => simp
      | some sh =>
        cases hd : (match dest.hash with
            | some h => some h
            | none => computeHash (config.destination ++ dest.path)) with
        | none => simp
        | some dh =>
          by_cases he : sh ≠ dh <;> simp [he]
    · simp only [h2, if_false]
      cases compare src.mtime dest.mtime <;> simp

theorem compare_files_ne_delete (computeHash : Path → Option Nat)
    (src dest : FileEntry) (config : Config) (p : Path) :
    compare_files computeHash src dest config ≠ SyncAction.Delete p := by
  rcases compare_files_skip_or_overwrite computeHash src dest config with h | h <;>
    simp [h]

/-! ### Actions only grow along the planning folds -/

theorem count_delete_add_action_of_ne {plan : DiffPlan} {action : SyncAction} {c : Path}
    (h : action ≠ SyncAction.Delete c) :
    List.count (SyncAction.Delete c) (plan.add_action action).actions =
      List.count (SyncAction.Delete c) plan.actions := by
  have : (plan.add_action action).actions = plan.actions ++ [action] := rfl
  rw [this, count_append_singleton]
  simp [h]

theorem conflictStep_planned_mono {st : List Path × DiffPlan} {c d : Path}
    (h : c ∈ st.1) : c ∈ (conflictStep st d).1 := by
  unfold conflictStep
  by_cases hd : d ∈ st.1 <;> simp [hd, h]

theorem conflictFold_planned_mono {roots : List Path} {st : List Path × DiffPlan} {c : Path}
    (h : c ∈ st.1) : c ∈ (roots.foldl conflictStep st).1 := by
  induction roots generalizing st with
  | nil => exact h
  | cons r rest ih => exact ih (conflictStep_planned_mono h)

theorem conflictFold_mem_planned {roots : List Path} {st : List Path × DiffPlan} {c : Path}
    (h : c ∈ roots) : c ∈ (roots.foldl conflictStep st).1 := by
  induction roots generalizing st with
  | nil => simp at h
  | cons r rest ih =>
    rcases List.mem_cons.mp h with h' | h'
    · subst h'
      have hc' : c ∈ (conflictStep st c).1 := by
        unfold conflictStep
        by_cases hc : c ∈ st.1 <;> simp [hc]
      rw [List.foldl_cons]
      exact conflictFold_planned_mono hc'
    · exact ih h'

theorem planDelCountInv_conflictStep {st : List Path × DiffPlan} (h : planDelCountInv st)
    (d : Path) : planDelCountInv (conflictStep st d) := by
  unfold conflictStep
  by_cases hd : d ∈ st.1
  · simpa [hd] using h
  · simp only [hd, if_false]
    intro c
    have hc := h c
    have hacts : ((st.2.add_action (SyncAction.Delete d))).actions =
        st.2.actions ++ [SyncAction.Delete d] := rfl
    by_cases he : d = c
    · subst he
      simp only [hacts]
      rw [count_append_singleton, if_pos rfl, hc, if_neg hd,
        if_pos (List.mem_cons_self d st.1)]
    · simp only [hacts]
      rw [count_append_singleton]
      have hne : ¬ (SyncAction.Delete d = SyncAction.Delete c) := by simp [he]
      rw [if_neg hne, Nat.add_zero, hc]
      have hmem : (c ∈ d :: st.1) ↔ (c ∈ st.1) := by
        constructor
        · intro hm
          rcases List.mem_cons.mp hm with h1 | h1
          · exact absurd h1.symm he
          · exact h1
        · intro hm
          exact List.mem_cons_of_mem d hm
      simp only [hmem]

theorem planDelCountInv_conflictFold {roots : List Path} {st : List Path × DiffPlan}
    (h : planDelCountInv st) : planDelCountInv (roots.foldl conflictStep st) := by
  induction roots generalizing st with
  | nil => exact h
  | cons r rest ih => exact ih (planDelCountInv_conflictStep h r)

theorem srcStep_planned_mono (computeHash : Path → Option Nat) (dest_tree : FileTree)
    (dest_parent_dirs : List Path) (allow_deletes : Bool) (config : Config)
    {st : List Path × DiffPlan} {kv : Path × FileEntry} {c : Path} (h : c ∈ st.1) :
    c ∈ (srcStep computeHash dest_tree dest_parent_dirs allow_deletes config st kv).1 := by
  unfold srcStep
  cases allow_deletes <;>
    cases hget : dest_tree.get kv.1 <;>
    simp only [Bool.false_eq_true, if_false, if_true, hget] <;>
    first
      | exact h
      | exact conflictFold_planned_mono h
      | (split <;> exact h)
      | (split <;> exact conflictFold_planned_mono h)

theorem planDelCountInv_srcStep (computeHash : Path → Option Nat) (dest_tree : FileTree)
    (dest_parent_dirs : List Path) (allow_deletes : Bool) (config : Config)
    {st : List Path × DiffPlan} (h : planDelCountInv st) (kv : Path × FileEntry) :
    planDelCountInv (srcStep computeHash dest_tree dest_parent_dirs allow_deletes config st kv) := by
  unfold srcStep
  have hconf : planDelCountInv
      (if allow_deletes then
        (conflict_delete_roots kv.1 dest_tree dest_parent_dirs).foldl conflictStep st
      else st) := by
    cases allow_deletes <;> simp [planDelCountInv_conflictFold h, h]
  set st' := (if allow_deletes then
      (conflict_delete_roots kv.1 dest_tree dest_parent_dirs).foldl conflictStep st
    else st) with hst'
  cases hget : dest_tree.get kv.1 with
  | none =>
    intro c
    have := hconf c
    simp only [hget]
    rw [count_delete_add_action_of_ne (by simp)]
    exact this
  | some de =>
    intro c
    have := hconf c
    simp only [hget]
    split
    · rw [count_delete_add_action_of_ne (by simp)]
      exact this
    · rw [count_delete_add_action_of_ne
        (compare_files_ne_delete computeHash kv.2 de config c)]
      exact this

theorem srcFold_planned_mono (computeHash : Path → Option Nat) (dest_tree : FileTree)
    (dest_parent_dirs : List Path) (allow_deletes : Bool) (config : Config)
    {l : List (Path × FileEntry)} {st : List Path × DiffPlan} {c : Path} (h : c ∈ st.1) :
    c ∈ (l.foldl (srcStep computeHash dest_tree dest_parent_dirs allow_deletes config) st).1 := by
  induction l generalizing st with
  | nil => exact h
  | cons kv rest ih =>
    exact ih (srcStep_planned_mono computeHash dest_tree dest_parent_dirs
      allow_deletes config h)

theorem planDelCountInv_srcFold (computeHash : Path → Option Nat) (dest_tree : FileTree)
    (dest_parent_dirs : List Path) (allow_deletes : Bool) (config : Config)
    {l : List (Path × FileEntry)} {st : List Path × DiffPlan} (h : planDelCountInv st) :
    planDelCountInv
      (l.foldl (srcStep computeHash dest_tree dest_parent_dirs allow_deletes config) st) := by
  induction l generalizing st with
  | nil => exact h
  | cons kv rest ih =>
    exact ih (planDelCountInv_srcStep computeHash dest_tree dest_parent_dirs
      allow_deletes config h kv)

/-! ### Actions are only ever appended -/

theorem add_action_actions (plan : DiffPlan) (action : SyncAction) :
    (plan.add_action action).actions = plan.actions ++ [action] := rfl

theorem conflictStep_actions_append (st : List Path × DiffPlan) (c : Path) :
    ∃ t, (conflictStep st c).2.actions = st.2.actions ++ t := by
  unfold conflictStep
  by_cases hc : c ∈ st.1
  · exact ⟨[], by simp [hc]⟩
  · exact ⟨[SyncAction.Delete c], by simp [hc, add_action_actions]⟩

theorem conflictFold_actions_append (roots : List Path) (st : List Path × DiffPlan) :
    ∃ t, ((roots.foldl conflictStep st).2).actions = st.2.actions ++ t := by
  induction roots generalizing st with
  | nil => exact ⟨[], by simp⟩
  | cons r rest ih =>
    obtain ⟨t1, ht1⟩ := conflictStep_actions_append st r
    obtain ⟨t2, ht2⟩ := ih (conflictStep st r)
    exact ⟨t1 ++ t2, by rw [List.foldl_cons, ht2, ht1, List.append_assoc]⟩

theorem srcStep_actions_append (computeHash : Path → Option Nat) (dest_tree : FileTree)
    (dest_parent_dirs : List Path) (allow_deletes : Bool) (config : Config)
    (st : List Path × DiffPlan) (kv : Path × FileEntry) :
    ∃ t, (srcStep computeHash dest_tree dest_parent_dirs allow_deletes config st kv).2.actions =
      st.2.actions ++ t := by
  unfold srcStep
  have hconf : ∃ t, ((if allow_deletes then
      (conflict_delete_roots kv.1 dest_tree dest_parent_dirs).foldl conflictStep st
    else st).2).actions = st.2.actions ++ t := by
    cases allow_deletes
    · exact ⟨[], by simp⟩
    · simpa using conflictFold_actions_append _ st
  obtain ⟨t1, ht1⟩ := hconf
  cases hget : dest_tree.get kv.1 with
  | none =>
    exact ⟨t1 ++ [SyncAction.CopyNew kv.2],
      by simp [hget, add_action_actions, ht1, List.append_assoc]⟩
  | some de =>
    by_cases hskip : (compare_files computeHash kv.2 de config).is_skip
    · exact ⟨t1 ++ [SyncAction.Skip],
        by simp [hget, hskip, add_action_actions, ht1, List.append_assoc]⟩
    · exact ⟨t1 ++ [compare_files computeHash kv.2 de config],
        by simp [hget, hskip, add_action_actions, ht1, List.append_assoc]⟩

theorem srcFold_actions_append (computeHash : Path → Option Nat) (dest_tree : FileTree)
    (dest_parent_dirs : List Path) (allow_deletes : Bool) (config : Config)
    (l : List (Path × FileEntry)) (st : List Path × DiffPlan) :
    ∃ t, ((l.foldl (srcStep computeHash dest_tree dest_parent_dirs allow_deletes config) st).2).actions =
      st.2.actions ++ t := by
  induction l generalizing st with
  | nil => exact ⟨[], by simp⟩
  | cons kv rest ih =>
    obtain ⟨t1, ht1⟩ := srcStep_actions_append computeHash dest_tree dest_parent_dirs
      allow_deletes config st kv
    obtain ⟨t2, ht2⟩ := ih (srcStep computeHash dest_tree dest_parent_dirs
      allow_deletes config st kv)
    exact ⟨t1 ++ t2, by rw [List.foldl_cons, ht2, ht1, List.append_assoc]⟩

theorem orphanStep_actions_append (src_tree : FileTree) (planned : List Path)
    (plan : DiffPlan) (kv : Path × FileEntry) :
    ∃ t, (orphanStep src_tree planned plan kv).actions = plan.actions ++ t := by
  unfold orphanStep
  split
  · exact ⟨[SyncAction.Delete kv.1], add_action_actions plan _⟩
  · exact ⟨[], by simp⟩

theorem orphanFold_actions_append (src_tree : FileTree) (planned : List Path)
    (l : List (Path × FileEntry)) (plan : DiffPlan) :
    ∃ t, ((l.foldl (orphanStep src_tree planned) plan).actions) = plan.actions ++ t := by
  induction l generalizing plan with
  | nil => exact ⟨[], by simp⟩
  | cons kv rest ih =>
    obtain ⟨t1, ht1⟩ := orphanStep_actions_append src_tree planned plan kv
    obtain ⟨t2, ht2⟩ := ih (orphanStep src_tree planned plan kv)
    exact ⟨t1 ++ t2, by rw [List.foldl_cons, ht2, ht1, List.append_assoc]⟩

theorem sublist_append_extend {α : Type} {l m : List α} (h : List.Sublist l m)
    (t : List α) : List.Sublist l (m ++ t) :=
  h.trans (List.sublist_append_left m t)

/-! ### Membership in the destination parent-directory set -/

theorem mem_ancestorsDesc_drop_one {a q : Path} :
    a ∈ (ancestorsDesc q).drop 1 ↔ (a <+: q ∧ a ≠ q) := by
  unfold ancestorsDesc
  rw [List.range_succ, List.reverse_append]
  simp only [List.reverse_singleton, List.singleton_append, List.map_cons,
    List.drop_succ_cons, List.drop_zero, List.mem_map, List.mem_reverse,
    List.mem_range]
  constructor
  · rintro ⟨k, hk, heq⟩
    refine ⟨heq ▸ List.take_prefix k q, ?_⟩
    intro hcontra
    have hlen : a.length = k := by
      rw [← heq, List.length_take]
      omega
    rw [hcontra] at hlen
    omega
  · rintro ⟨hpre, hne⟩
    have heq := List.prefix_iff_eq_take.mp hpre
    refine ⟨a.length, ?_, heq.symm⟩
    have hle : a.length ≤ q.length := hpre.length_le
    rcases Nat.lt_or_ge a.length q.length with h1 | h1
    · exact h1
    · exfalso
      have hlen : a.length = q.length := Nat.le_antisymm hle h1
      rw [hlen, List.take_length] at heq
      exact hne heq

theorem mem_dest_parent_prefixes {dest_tree : FileTree} {q : Path} {ee : FileEntry}
    {a : Path} (hq : (q, ee) ∈ dest_tree.entries) (ha : a ≠ []) (hpre : a <+: q)
    (hne : a ≠ q) : a ∈ build_dest_parent_prefixes dest_tree := by
  unfold build_dest_parent_prefixes
  rw [List.mem_flatMap]
  refine ⟨(q, ee), hq, ?_⟩
  rw [List.mem_filter]
  exact ⟨mem_ancestorsDesc_drop_one.mpr ⟨hpre, hne⟩, by simp [ha]⟩

/-! ### The orphan loop, path by path -/

theorem orphanStep_emits {src_tree : FileTree} {planned : List Path} {plan : DiffPlan}
    {kv : Path × FileEntry} (h1 : src_tree.contains kv.1 = false)
    (h2 : kv.1 ∉ planned)
    (h3 : is_covered_by_planned_delete kv.1 planned = false) :
    orphanStep src_tree planned plan kv = plan.add_action (SyncAction.Delete kv.1) := by
  unfold orphanStep
  rw [if_pos]
  simp [h1, h2, h3]

theorem orphanFold_count_ne {src_tree : FileTree} {planned : List Path} {p : Path}
    {l : List (Path × FileEntry)} {plan : DiffPlan} (h : ∀ kv ∈ l, kv.1 ≠ p) :
    List.count (SyncAction.Delete p) ((l.foldl (orphanStep src_tree planned) plan).actions) =
      List.count (SyncAction.Delete p) plan.actions := by
  induction l generalizing plan with
  | nil => rfl
  | cons kv rest ih =>
    rw [List.foldl_cons]
    have hkv : kv.1 ≠ p := h kv (List.mem_cons_self kv rest)
    have hstep : List.count (SyncAction.Delete p) (orphanStep src_tree planned plan kv).actions =
        List.count (SyncAction.Delete p) plan.actions := by
      unfold orphanStep
      split
      · rw [count_delete_add_action_of_ne (by simp [hkv])]
      · rfl
    rw [ih (fun kv' hm => h kv' (List.mem_cons_of_mem kv hm)), hstep]

theorem is_covered_by_planned_delete_nil (p : Path) :
    is_covered_by_planned_delete p [] = false := by
  simp [is_covered_by_planned_delete]

theorem contains_false_of_empty {src_tree : FileTree} (hsrc : src_tree.entries = [])
    (p : Path) : src_tree.contains p = false := by
  unfold FileTree.contains FileTree.get
  rw [hsrc]
  rfl

theorem orphanFold_all_deletes {src_tree : FileTree} (hsrc : src_tree.entries = [])
    (l : List (Path × FileEntry)) (plan : DiffPlan) :
    ((l.foldl (orphanStep src_tree []) plan).actions) =
      plan.actions ++ l.map (fun kv => SyncAction.Delete kv.1) := by
  induction l generalizing plan with
  | nil => simp
  | cons kv rest ih =>
    rw [List.foldl_cons,
      orphanStep_emits (contains_false_of_empty hsrc kv.1) (by simp)
        (is_covered_by_planned_delete_nil kv.1),
      ih, add_action_actions]
    simp

/-! ### No deletes at all when the mode is `None` -/

theorem srcStep_no_delete (computeHash : Path → Option Nat) (dest_tree : FileTree)
    (dest_parent_dirs : List Path) (config : Config) {st : List Path × DiffPlan}
    {kv : Path × FileEntry}
    (h : ∀ p : Path, SyncAction.Delete p ∉ st.2.actions) (p : Path) :
    SyncAction.Delete p ∉
      (srcStep computeHash dest_tree dest_parent_dirs false config st kv).2.actions := by
  unfold srcStep
  simp only [Bool.false_eq_true, if_false]
  cases hget : dest_tree.get kv.1 with
  | none =>
    simp only [hget, add_action_actions]
    intro hmem
    rcases List.mem_append.mp hmem with h1 | h1
    · exact h p h1
    · simp at h1
  | some de =>
    simp only [hget]
    split <;> simp only [add_action_actions] <;> intro hmem <;>
      rcases List.mem_append.mp hmem with h1 | h1
    · exact h p h1
    · simp at h1
    · exact h p h1
    · rw [List.mem_singleton] at h1
      exact compare_files_ne_delete computeHash kv.2 de config p h1.symm

theorem srcFold_no_delete (computeHash : Path → Option Nat) (dest_tree : FileTree)
    (dest_parent_dirs : List Path) (config : Config) {l : List (Path × FileEntry)}
    {st : List Path × DiffPlan}
    (h : ∀ p : Path, SyncAction.Delete p ∉ st.2.actions) :
    ∀ p : Path, SyncAction.Delete p ∉
      (l.foldl (srcStep computeHash dest_tree dest_parent_dirs false config) st).2.actions := by
  induction l generalizing st with
  | nil => exact h
  | cons kv rest ih =>
    exact ih (fun p => srcStep_no_delete computeHash dest_tree dest_parent_dirs config h p)

/-! ### The stable sort -/

theorem sort_by_path_count (plan : DiffPlan) (a : SyncAction) :
    List.count a plan.sort_by_path.actions = List.count a plan.actions :=
  (List.mergeSort_perm plan.actions actionLe).count_eq a

theorem sort_by_path_mem (plan : DiffPlan) (a : SyncAction) :
    a ∈ plan.sort_by_path.actions ↔ a ∈ plan.actions :=
  List.mem_mergeSort

theorem sort_by_path_pair_sublist {plan : DiffPlan} {x y : SyncAction}
    (hxy : actionLe x y = true) (hsub : List.Sublist [x, y] plan.actions) :
    List.Sublist [x, y] plan.sort_by_path.actions :=
  List.pair_sublist_mergeSort actionLe_trans actionLe_total hxy hsub

end PlanLemmas

/-- Claim C2: When the source holds a file at `a`, the destination holds
entries strictly beneath `a` (and nothing at `a` itself), and the delete
mode is `Trash`, the sorted plan contains `Delete a` before `CopyNew` of the
source entry, and `Delete a` exactly once. -/
theorem conflict_delete_precedes_copynew (computeHash : Path → Option Nat)
    (src_tree dest_tree : FileTree) (config : Config) (a : Path) (e : FileEntry)
    (hmem : (a, e) ∈ src_tree.entries)
    (hpath : e.path = a)
    (hroot : a ≠ [])
    (hbeneath : ∃ q ee, (q, ee) ∈ dest_tree.entries ∧ a <+: q ∧ a ≠ q)
    (habsent : dest_tree.get a = none)
    (hmode : config.delete_mode = DeleteMode.Trash) :
    List.Sublist [SyncAction.Delete a, SyncAction.CopyNew e]
      (generate_sync_plan computeHash src_tree dest_tree config).actions ∧
    List.count (SyncAction.Delete a)
      (generate_sync_plan computeHash src_tree dest_tree config).actions = 1 := by
  obtain ⟨q, ee, hq, hqpre, hqne⟩ := hbeneath
  have hallow : decide (config.delete_mode ≠ DeleteMode.None) = true := by
    rw [hmode]
    decide
  obtain ⟨l1, l2, hsplit⟩ := List.append_of_mem hmem
  set dirs := build_dest_parent_prefixes dest_tree with hdirs
  set F := srcStep computeHash dest_tree dirs true config with hF
  set st1 := l1.foldl F ([], DiffPlan.new) with hst1
  have inv0 : planDelCountInv (([], DiffPlan.new) : List Path × DiffPlan) := by
    intro c
    simp [DiffPlan.new]
  have inv1 : planDelCountInv st1 :=
    planDelCountInv_srcFold computeHash dest_tree dirs true config inv0
  set roots := conflict_delete_roots a dest_tree dirs with hroots
  set stC := roots.foldl conflictStep st1 with hstC
  have hdmem : a ∈ dirs := mem_dest_parent_prefixes hq hroot hqpre hqne
  have haroots : a ∈ roots := by
    rw [hroots]
    unfold conflict_delete_roots
    apply List.mem_append_right
    rw [if_pos hdmem]
    exact List.mem_cons_self a []
  have haC : a ∈ stC.1 := conflictFold_mem_planned haroots
  have invC : planDelCountInv stC := planDelCountInv_conflictFold inv1
  have hDelMem : SyncAction.Delete a ∈ stC.2.actions := by
    apply List.count_pos_iff.mp
    rw [invC a, if_pos haC]
    exact Nat.one_pos
  have hst2 : F st1 (a, e) = (stC.1, stC.2.add_action (SyncAction.CopyNew e)) := by
    rw [hF]
    unfold srcStep
    simp [habsent, hstC, hroots]
  have hsub2 : List.Sublist [SyncAction.Delete a, SyncAction.CopyNew e]
      (F st1 (a, e)).2.actions := by
    rw [hst2, add_action_actions]
    exact List.Sublist.append (List.singleton_sublist.mpr hDelMem) (List.Sublist.refl _)
  have inv2 : planDelCountInv (F st1 (a, e)) :=
    planDelCountInv_srcStep computeHash dest_tree dirs true config inv1 (a, e)
  have ha2 : a ∈ (F st1 (a, e)).1 := by
    rw [hst2]
    exact haC
  set st3 := l2.foldl F (F st1 (a, e)) with hst3
  have inv3 : planDelCountInv st3 :=
    planDelCountInv_srcFold computeHash dest_tree dirs true config inv2
  have ha3 : a ∈ st3.1 :=
    srcFold_planned_mono computeHash dest_tree dirs true config ha2
  have hsub3 : List.Sublist [SyncAction.Delete a, SyncAction.CopyNew e] st3.2.actions := by
    obtain ⟨t, ht⟩ := srcFold_actions_append computeHash dest_tree dirs true config
      l2 (F st1 (a, e))
    rw [hst3, ht]
    exact sublist_append_extend hsub2 t
  have hcount3 : List.count (SyncAction.Delete a) st3.2.actions = 1 := by
    rw [inv3 a, if_pos ha3]
  have hkeys : ∀ kv ∈ dest_tree.entries, kv.1 ≠ a :=
    lookupEntry_eq_none_iff.mp habsent
  set plan4 := dest_tree.entries.foldl (orphanStep src_tree st3.1) st3.2 with hplan4
  have hcount4 : List.count (SyncAction.Delete a) plan4.actions = 1 := by
    rw [hplan4, orphanFold_count_ne hkeys, hcount3]
  have hsub4 : List.Sublist [SyncAction.Delete a, SyncAction.CopyNew e] plan4.actions := by
    obtain ⟨t, ht⟩ := orphanFold_actions_append src_tree st3.1 dest_tree.entries st3.2
    rw [hplan4, ht]
    exact sublist_append_extend hsub3 t
  have hgen : generate_sync_plan computeHash src_tree dest_tree config =
      plan4.sort_by_path := by
    unfold generate_sync_plan
    simp only [hallow, if_true, ← hdirs, ← hF]
    rw [hsplit, List.foldl_append, List.foldl_cons]
  constructor
  · rw [hgen]
    exact sort_by_path_pair_sublist (actionLe_delete_copynew hpath) hsub4
  · rw [hgen, sort_by_path_count, hcount4]

/-- Claim C4: Orphan handling of `generate_sync_plan`: a destination path
absent from the source gets exactly one `Delete` when deletes are enabled
and the path is not already a planned delete nor covered by a planned
ancestor delete; an empty source with `Trash` yields exactly one `Delete`
per destination entry; `DeleteMode::None` yields no `Delete` at all. -/
theorem orphan_delete_emission (computeHash : Path → Option Nat)
    (src_tree dest_tree : FileTree) (config : Config) :
    (∀ (p : Path) (de : FileEntry), (dest_tree.entries.map Prod.fst).Nodup →
      (p, de) ∈ dest_tree.entries →
      src_tree.contains p = false →
      config.delete_mode ≠ DeleteMode.None →
      p ∉ plannedDeletesAfterSrc computeHash src_tree dest_tree config →
      is_covered_by_planned_delete p
        (plannedDeletesAfterSrc computeHash src_tree dest_tree config) = false →
      List.count (SyncAction.Delete p)
        (generate_sync_plan computeHash src_tree dest_tree config).actions = 1) ∧
    (src_tree.entries = [] → config.delete_mode = DeleteMode.Trash →
      (generate_sync_plan computeHash src_tree dest_tree config).actions.Perm
        (dest_tree.entries.map (fun kv => SyncAction.Delete kv.1))) ∧
    (config.delete_mode = DeleteMode.None →
      ∀ p : Path, SyncAction.Delete p ∉
        (generate_sync_plan computeHash src_tree dest_tree config).actions) := by
  have inv0 : planDelCountInv (([], DiffPlan.new) : List Path × DiffPlan) := by
    intro c
    simp [DiffPlan.new]
  refine ⟨?_, ?_, ?_⟩
  · intro p de hnodup hdest hsrcabs hmode hplanned hcov
    have hallow : decide (config.delete_mode ≠ DeleteMode.None) = true := by
      simpa using hmode
    set dirs := build_dest_parent_prefixes dest_tree with hdirs
    set st := src_tree.entries.foldl
      (srcStep computeHash dest_tree dirs true config) ([], DiffPlan.new) with hst
    have hPD : plannedDeletesAfterSrc computeHash src_tree dest_tree config = st.1 := by
      unfold plannedDeletesAfterSrc
      rw [hallow, ← hdirs, ← hst]
    rw [hPD] at hplanned hcov
    have hplanned' : p ∉ st.1 := hplanned
    have hcov' : is_covered_by_planned_delete p st.1 = false := hcov
    have inv : planDelCountInv st :=
      planDelCountInv_srcFold computeHash dest_tree dirs true config inv0
    have hcount0 : List.count (SyncAction.Delete p) st.2.actions = 0 := by
      rw [inv p, if_neg hplanned']
    obtain ⟨d1, d2, hdsplit⟩ := List.append_of_mem hdest
    have hkeys : p ∉ d1.map Prod.fst ∧ p ∉ d2.map Prod.fst := by
      rw [hdsplit] at hnodup
      simp only [List.map_append, List.map_cons] at hnodup
      rw [List.nodup_append] at hnodup
      obtain ⟨-, h2, hdisj⟩ := hnodup
      constructor
      · intro hp
        exact hdisj hp (List.mem_cons_self p _)
      · exact (List.nodup_cons.mp h2).1
    have hk1 : ∀ kv ∈ d1, kv.1 ≠ p := by
      intro kv hkv heq
      exact hkeys.1 (heq ▸ List.mem_map_of_mem Prod.fst hkv)
    have hk2 : ∀ kv ∈ d2, kv.1 ≠ p := by
      intro kv hkv heq
      exact hkeys.2 (heq ▸ List.mem_map_of_mem Prod.fst hkv)
    have hgen : generate_sync_plan computeHash src_tree dest_tree config =
        (dest_tree.entries.foldl (orphanStep src_tree st.1) st.2).sort_by_path := by
      unfold generate_sync_plan
      simp only [hallow, if_true, ← hdirs, ← hst]
    rw [hgen, sort_by_path_count, hdsplit, List.foldl_append, List.foldl_cons]
    rw [orphanFold_count_ne hk2]
    rw [orphanStep_emits hsrcabs hplanned' hcov', add_action_actions]
    rw [count_append_singleton, if_pos rfl, orphanFold_count_ne hk1, hcount0]
  · intro hsrc hmode
    have hallow : decide (config.delete_mode ≠ DeleteMode.None) = true := by
      rw [hmode]
      decide
    have hgen : generate_sync_plan computeHash src_tree dest_tree config =
        (dest_tree.entries.foldl (orphanStep src_tree ([] : List Path))
          DiffPlan.new).sort_by_path := by
      unfold generate_sync_plan
      simp only [hallow, if_true, hsrc, List.foldl_nil]
    rw [hgen]
    have hacts : (dest_tree.entries.foldl (orphanStep src_tree []) DiffPlan.new).actions =
        dest_tree.entries.map (fun kv => SyncAction.Delete kv.1) := by
      rw [orphanFold_all_deletes hsrc dest_tree.entries DiffPlan.new]
      rfl
    exact hacts ▸ List.mergeSort_perm _ actionLe
  · intro hmode p
    have hallow : decide (config.delete_mode ≠ DeleteMode.None) = false := by
      rw [hmode]
      decide
    have hgen : generate_sync_plan computeHash src_tree dest_tree config =
        ((src_tree.entries.foldl
          (srcStep computeHash dest_tree (build_dest_parent_prefixes dest_tree)
            false config) ([], DiffPlan.new)).2).sort_by_path := by
      unfold generate_sync_plan
      simp only [hallow, Bool.false_eq_true, if_false]
    rw [hgen]
    rw [show (((src_tree.entries.foldl
        (srcStep computeHash dest_tree (build_dest_parent_prefixes dest_tree)
          false config) ([], DiffPlan.new)).2).sort_by_path).actions =
        ((src_tree.entries.foldl
          (srcStep computeHash dest_tree (build_dest_parent_prefixes dest_tree)
            false config) ([], DiffPlan.new)).2).actions.mergeSort actionLe from rfl]
    intro hmem
    rw [List.mem_mergeSort] at hmem
    exact srcFold_no_delete computeHash dest_tree (build_dest_parent_prefixes dest_tree)
      config (by intro c; simp [DiffPlan.new]) p hmem

/-- Witness for `conflict_delete_precedes_copynew`: source file `a` against
destination entries beneath `a`, delete mode `Trash`. -/
theorem conflict_delete_precedes_copynew_witness :
    (((["a"] : Path), FileEntry.new ["a"] 10 1000 420) ∈ conflictSrcTree.entries) ∧
    List.Sublist
      [SyncAction.Delete ["a"], SyncAction.CopyNew (FileEntry.new ["a"] 10 1000 420)]
      (generate_sync_plan failHash conflictSrcTree conflictDestTree
        (testConfig DeleteMode.Trash)).actions ∧
    List.count (SyncAction.Delete ["a"])
      (generate_sync_plan failHash conflictSrcTree conflictDestTree
        (testConfig DeleteMode.Trash)).actions = 1 := by
  have h := conflict_delete_precedes_copynew failHash conflictSrcTree conflictDestTree
    (testConfig DeleteMode.Trash) ["a"] (FileEntry.new ["a"] 10 1000 420)
    (by decide) rfl (by decide)
    ⟨["a", "old.txt"], FileEntry.new ["a", "old.txt"] 4 900 420, by decide,
      ⟨["old.txt"], rfl⟩, by decide⟩
    (by decide) rfl
  exact ⟨by decide, h.1, h.2⟩

/-- Witness for `orphan_delete_emission`: empty source against a one-file
destination, under `Trash` and under `None`. -/
theorem orphan_delete_emission_witness :
    ((FileTree.new ["s"]).contains ["old.txt"] = false) ∧
    List.count (SyncAction.Delete ["old.txt"])
      (generate_sync_plan failHash (FileTree.new ["s"]) sampleDestTree
        (testConfig DeleteMode.Trash)).actions = 1 ∧
    (generate_sync_plan failHash (FileTree.new ["s"]) sampleDestTree
      (testConfig DeleteMode.Trash)).actions.Perm
      (sampleDestTree.entries.map (fun kv => SyncAction.Delete kv.1)) ∧
    (∀ p : Path, SyncAction.Delete p ∉
      (generate_sync_plan failHash (FileTree.new ["s"]) sampleDestTree
        (testConfig DeleteMode.None)).actions) := by
  have h := orphan_delete_emission failHash (FileTree.new ["s"]) sampleDestTree
    (testConfig DeleteMode.Trash)
  have hn := orphan_delete_emission failHash (FileTree.new ["s"]) sampleDestTree
    (testConfig DeleteMode.None)
  refine ⟨by decide, ?_, ?_, ?_⟩
  · exact h.1 ["old.txt"] (FileEntry.new ["old.txt"] 9 900 420)
      (by decide) (by decide) (by decide) (by decide) (by decide) (by decide)
  · exact h.2.1 rfl rfl
  · exact hn.2.2 rfl

end Kopy
